import Mathlib

/-!
# Verification of the `unglued` ephemeral versioned paste store

A shallow embedding of the Go sources of `dme86/unglued`:
`internal/model/paste.go` (data model), `internal/store/store.go`
(the concurrent map with lazy expiry and the janitor sweeper),
`internal/util` (`ParseTTL`, `NewID`, `GzipEncode`/`GzipDecode`),
and the HTTP handlers of `internal/httpx`
(`canEditPaste`, `buildPaste`, `handleEditSave`, `handleAPIEdit`,
`handleRaw`, `handleView`).

Conventions of the embedding:
* Go `time.Time` is modelled as `Nat` (nanoseconds on an absolute clock);
  `time.Duration` is a `Nat` number of nanoseconds.
  `a.After(b)` is `b < a`, `a.Before(b)` is `a < b`, `t.Add(d)` is `t + d`.
* Go byte slices are `List Nat`.
* Fallible Go functions returning `(T, error)` are modelled with
  `Except String T`; functions returning `(T, bool)` with `Option T`.
* The store's `map[string]*model.Paste` is an association list with
  unique keys; `sync.RWMutex` makes each exported `Store` method an
  atomic step, which the concurrency theorems below model by
  interleaving those atomic steps explicitly.
-/

/-! ## Version codec

`util.GzipEncode`/`util.GzipDecode` (`internal/util/mem.go` in the split
sources, also `gzipEncode`/`gzipDecode` in `main.go`) wrap Go's
`compress/gzip` standard library, which is not part of this repository.
Modelled from the spec: §4.2 requires an executable lossless codec —
`encode` always produces decodable bytes, `decode` fails with an error on
bytes that are not validly encoded.  We model it as a run-length codec
behind the two-byte gzip magic header `0x1f 0x8b` (31, 139): a real
encoder/decoder pair with a genuine failure path, faithful to the
contract the store relies on. -/

/-- One run of the run-length payload: emit the run length and the code
point, then continue with the rest of the text. -/
def rleGo (n : Nat) (c : Char) : List Char → List Nat
  | [] => [n, c.toNat]
  | d :: rest => if d = c then rleGo (n + 1) c rest else n :: c.toNat :: rleGo 1 d rest

/-- Run-length encode a character list as `run₁, code₁, run₂, code₂, …`. -/
def rleEncode : List Char → List Nat
  | [] => []
  | c :: rest => rleGo 1 c rest

/-- Run-length decode; fails on a truncated pair, a zero run length, or a
number that is not a valid Unicode code point. -/
def rleDecode : List Nat → Except String (List Char)
  | [] => .ok []
  | [_] => .error "gzip: unexpected EOF"
  | n :: c :: rest =>
    if n = 0 then .error "gzip: invalid run length"
    else if (Char.ofNat c).toNat ≠ c then .error "gzip: invalid code point"
    else (rleDecode rest).map (fun tail => List.replicate n (Char.ofNat c) ++ tail)

/-- `util.GzipEncode`: compress a string to bytes.  Never fails. -/
def GzipEncode (s : String) : List Nat :=
  31 :: 139 :: rleEncode s.data

/-- `util.GzipDecode`: decompress bytes back to a string, or fail with an
error when the bytes are not validly encoded (bad magic or bad payload). -/
def GzipDecode (b : List Nat) : Except String String :=
  match b with
  | 31 :: 139 :: rest => (rleDecode rest).map fun l => ⟨l⟩
  | _ => .error "gzip: invalid header"

theorem rleDecode_rleGo (l : List Char) (n : Nat) (c : Char) (hn : n ≠ 0) :
    rleDecode (rleGo n c l) = .ok (List.replicate n c ++ l) := by
  induction l generalizing n c with
  | nil =>
    simp [rleGo, rleDecode, hn, Char.ofNat_toNat, Except.map]
  | cons d rest ih =>
    by_cases hdc : d = c
    · subst hdc
      rw [rleGo, if_pos rfl, ih _ _ (Nat.succ_ne_zero n)]
      congr 1
      simp [List.replicate_succ']
    · rw [rleGo, if_neg hdc]
      show rleDecode (n :: c.toNat :: rleGo 1 d rest) = _
      rw [rleDecode]
      simp only [hn, if_false, Char.ofNat_toNat, ne_eq, not_true_eq_false, if_neg,
        not_false_eq_true]
      rw [ih 1 d one_ne_zero]
      simp [Except.map]

theorem rleDecode_rleEncode (l : List Char) : rleDecode (rleEncode l) = .ok l := by
  cases l with
  | nil => rfl
  | cons c rest =>
    rw [rleEncode, rleDecode_rleGo rest 1 c one_ne_zero]
    simp

/-- **C3** — For every content string `s`, decoding the result of encoding
`s` succeeds without error and returns `s`:
`GzipDecode (GzipEncode s) = ok s`. -/
theorem gzip_roundtrip (s : String) : GzipDecode (GzipEncode s) = .ok s := by
  rw [GzipEncode, GzipDecode, rleDecode_rleEncode]
  cases s
  rfl

/-! ## Data model (`internal/model/paste.go`) -/

/-- `model.Version`: an immutable compressed snapshot of the content. -/
structure Version where
  ZCode : List Nat
  Lang : String
  Author : String
  At : Nat
deriving DecidableEq, Repr

/-- `model.Paste`: the store's primary entity. -/
structure Paste where
  ID : String
  Lang : String
  Code : String
  Theme : String
  ExpiresAt : Nat
  Editable : Bool
  EditKey : String
  Author : String
  Versions : List Version
  CreatedAt : Nat
  UpdatedAt : Nat
deriving DecidableEq, Repr

/-! ## The store (`internal/store/store.go`)

`Store.items` is `map[string]*model.Paste`, modelled as an association
list with unique keys (Go map semantics).  Each exported method holds the
`sync.RWMutex` for its whole body, so each is one atomic step.  `time.Now()`
is passed in explicitly as `now`. -/

/-- Go map lookup `s.items[id]` on the association list. -/
def mapLookup (id : String) : List (String × Paste) → Option Paste
  | [] => none
  | (k, p) :: rest => if k = id then some p else mapLookup id rest

/-- The store state: the contents of `map[string]*model.Paste`. -/
structure Store where
  items : List (String × Paste)
deriving DecidableEq, Repr

/-- `Store.Put`: `s.items[p.ID] = &p` — insert or replace the binding. -/
def Store.Put (s : Store) (p : Paste) : Store :=
  ⟨(p.ID, p) :: s.items.filter fun kv => kv.1 != p.ID⟩

/-- `Store.Get`: look up `id`; report not-found when the key is absent or
when `time.Now().After(ptr.ExpiresAt)`, i.e. `ExpiresAt < now` (strict). -/
def Store.Get (s : Store) (now : Nat) (id : String) : Option Paste :=
  match mapLookup id s.items with
  | none => none
  | some p => if p.ExpiresAt < now then none else some p

/-- `Store.CountActive`: count entries with `now.Before(p.ExpiresAt)`,
i.e. `now < ExpiresAt` (strict, in the other direction than `Get`). -/
def Store.CountActive (s : Store) (now : Nat) : Nat :=
  (s.items.filter fun kv => decide (now < kv.2.ExpiresAt)).length

/-- One pass of `Store.janitor` at tick time `now`: delete every entry
with `now.After(p.ExpiresAt)`, i.e. `ExpiresAt < now`. -/
def Store.janitorSweep (s : Store) (now : Nat) : Store :=
  ⟨s.items.filter fun kv => !decide (kv.2.ExpiresAt < now)⟩

/-- Janitor passes at each tick time in `times`, in order. -/
def sweepAll (s : Store) (times : List Nat) : Store :=
  times.foldl Store.janitorSweep s

/-! ### Association-list lemmas -/

theorem mapLookup_cons (id k : String) (q : Paste) (rest : List (String × Paste)) :
    mapLookup id ((k, q) :: rest) = if k = id then some q else mapLookup id rest := rfl

theorem mapLookup_eq_none_of_not_mem (id : String) (l : List (String × Paste))
    (h : id ∉ l.map Prod.fst) : mapLookup id l = none := by
  induction l with
  | nil => rfl
  | cons kv rest ih =>
    simp only [List.map_cons, List.mem_cons] at h
    push_neg at h
    cases kv with
    | mk k q =>
      rw [mapLookup_cons, if_neg (fun he => h.1 he.symm)]
      exact ih h.2

theorem mapLookup_filter_of_kept (f : String × Paste → Bool) (id : String) (p : Paste)
    (l : List (String × Paste)) (hlk : mapLookup id l = some p) (hf : f (id, p) = true) :
    mapLookup id (l.filter f) = some p := by
  induction l with
  | nil => simp [mapLookup] at hlk
  | cons kv rest ih =>
    cases kv with
    | mk k q =>
      by_cases hk : k = id
      · subst hk
        rw [mapLookup_cons, if_pos rfl] at hlk
        rw [Option.some.injEq] at hlk
        subst hlk
        rw [List.filter_cons, if_pos hf, mapLookup_cons, if_pos rfl]
      · rw [mapLookup_cons, if_neg hk] at hlk
        rw [List.filter_cons]
        by_cases hfk : f (k, q) = true
        · rw [if_pos hfk, mapLookup_cons, if_neg hk]
          exact ih hlk
        · rw [if_neg hfk]
          exact ih hlk

theorem mapLookup_filter_nodup (f : String × Paste → Bool) (id : String) (p : Paste)
    (l : List (String × Paste)) (hnd : (l.map Prod.fst).Nodup)
    (hlk : mapLookup id l = some p) :
    mapLookup id (l.filter f) = if f (id, p) = true then some p else none := by
  induction l with
  | nil => simp [mapLookup] at hlk
  | cons kv rest ih =>
    simp only [List.map_cons, List.nodup_cons] at hnd
    cases kv with
    | mk k q =>
      by_cases hk : k = id
      · subst hk
        rw [mapLookup_cons, if_pos rfl] at hlk
        rw [Option.some.injEq] at hlk
        subst hlk
        rw [List.filter_cons]
        by_cases hfk : f (k, q) = true
        · rw [if_pos hfk, if_pos hfk, mapLookup_cons, if_pos rfl]
        · rw [if_neg hfk, if_neg hfk]
          refine mapLookup_eq_none_of_not_mem _ _ fun hmem => hnd.1 ?_
          have hsub : ((rest.filter f).map Prod.fst).Sublist (rest.map Prod.fst) :=
            (List.filter_sublist rest).map Prod.fst
          exact hsub.mem hmem
      · rw [mapLookup_cons, if_neg hk] at hlk
        rw [List.filter_cons]
        by_cases hfk : f (k, q) = true
        · rw [if_pos hfk, mapLookup_cons, if_neg hk]
          exact ih hnd.2 hlk
        · rw [if_neg hfk]
          exact ih hnd.2 hlk

theorem mapLookup_eq_none_iff (id : String) (l : List (String × Paste)) :
    mapLookup id l = none ↔ id ∉ l.map Prod.fst := by
  constructor
  · intro h hmem
    induction l with
    | nil => simp at hmem
    | cons kv rest ih =>
      cases kv with
      | mk k q =>
        rw [mapLookup_cons] at h
        by_cases hk : k = id
        · rw [if_pos hk] at h
          exact Option.noConfusion h
        · rw [if_neg hk] at h
          simp only [List.map_cons, List.mem_cons] at hmem
          rcases hmem with hmem | hmem
          · exact hk hmem.symm
          · exact ih h hmem
  · exact mapLookup_eq_none_of_not_mem id l

/-! ### Sweeper lemmas: the janitor never changes what `Get` observes -/

theorem janitorSweep_lookup_none (s : Store) (ts : Nat) (id : String)
    (h : mapLookup id s.items = none) :
    mapLookup id (s.janitorSweep ts).items = none := by
  rw [mapLookup_eq_none_iff] at h ⊢
  intro hmem
  exact h ((((List.filter_sublist s.items).map Prod.fst)).mem hmem)

theorem sweepAll_lookup_none (s : Store) (times : List Nat) (id : String)
    (h : mapLookup id s.items = none) :
    mapLookup id (sweepAll s times).items = none := by
  induction times generalizing s with
  | nil => exact h
  | cons ts rest ih => exact ih _ (janitorSweep_lookup_none s ts id h)

theorem janitorSweep_nodup (s : Store) (ts : Nat)
    (hnd : (s.items.map Prod.fst).Nodup) :
    ((s.janitorSweep ts).items.map Prod.fst).Nodup :=
  hnd.sublist ((List.filter_sublist s.items).map Prod.fst)

theorem sweepAll_lookup_kept (s : Store) (times : List Nat) (id : String) (p : Paste)
    (now : Nat) (hlk : mapLookup id s.items = some p)
    (htimes : ∀ ts ∈ times, ts ≤ now) (hlive : now ≤ p.ExpiresAt) :
    mapLookup id (sweepAll s times).items = some p := by
  induction times generalizing s with
  | nil => exact hlk
  | cons ts rest ih =>
    refine ih (s.janitorSweep ts) ?_ ?_
    · refine mapLookup_filter_of_kept _ _ _ _ hlk ?_
      have hts : ts ≤ now := htimes ts (List.mem_cons_self _ _)
      have : ¬ p.ExpiresAt < ts := by omega
      simp [this]
    · intro t ht
      exact htimes t (List.mem_cons_of_mem _ ht)

theorem sweepAll_lookup_sub (s : Store) (times : List Nat) (id : String) (p : Paste)
    (hnd : (s.items.map Prod.fst).Nodup) (hlk : mapLookup id s.items = some p) :
    mapLookup id (sweepAll s times).items = some p ∨
    mapLookup id (sweepAll s times).items = none := by
  induction times generalizing s with
  | nil => exact .inl hlk
  | cons ts rest ih =>
    have hstep := mapLookup_filter_nodup (fun kv => !decide (kv.2.ExpiresAt < ts))
      id p s.items hnd hlk
    by_cases hf : (fun kv => !decide (kv.2.ExpiresAt < ts)) (id, p) = true
    · rw [if_pos hf] at hstep
      exact ih (s.janitorSweep ts) (janitorSweep_nodup s ts hnd) hstep
    · rw [if_neg hf] at hstep
      exact .inr (sweepAll_lookup_none _ rest id hstep)

/-- A concrete paste used by the concrete evaluations below: created at
time 0 with TTL 100, one version holding `print(1)`. -/
def samplePaste : Paste :=
  { ID := "abc123", Lang := "python", Code := "print(1)", Theme := "dark",
    ExpiresAt := 100, Editable := false, EditKey := "", Author := "",
    Versions := [{ ZCode := GzipEncode "print(1)", Lang := "python", Author := "", At := 0 }],
    CreatedAt := 0, UpdatedAt := 0 }

/-- **C1** (counterexample) — the claim requires not-found at any read
instant at or after `created + t`, but for the concrete object created at
time 0 with TTL 100, `Store.Get` at the exact instant `created + t = 100`
still returns the object, because expiry uses `time.Now().After(ExpiresAt)`,
which is strict. -/
theorem get_at_exact_expiry_found :
    samplePaste.CreatedAt = 0 ∧ samplePaste.ExpiresAt = 0 + 100 ∧
    Store.Get ⟨[("abc123", samplePaste)]⟩ 100 "abc123" = some samplePaste := by
  refine ⟨rfl, rfl, ?_⟩
  rfl

/-- **C1** (amended) — an object created with TTL `t` is retrievable at any
read instant `now ≤ created + t` and is reported not-found at any read
instant strictly after `created + t`, independent of which janitor sweeps
(at tick times no later than the read) have physically removed entries. -/
theorem expiry_is_lazy_and_absolute (s : Store) (times : List Nat) (id : String)
    (p : Paste) (now1 now2 created t : Nat)
    (hnd : (s.items.map Prod.fst).Nodup)
    (hlk : mapLookup id s.items = some p)
    (hexp : p.ExpiresAt = created + t)
    (htimes : ∀ ts ∈ times, ts ≤ now1)
    (h1 : now1 ≤ created + t) (h2 : created + t < now2) :
    (sweepAll s times).Get now1 id = some p ∧
    (sweepAll s times).Get now2 id = none := by
  constructor
  · have hl := sweepAll_lookup_kept s times id p now1 hlk htimes (by omega)
    simp only [Store.Get, hl]
    rw [if_neg (by omega)]
  · rcases sweepAll_lookup_sub s times id p hnd hlk with hl | hl
    · simp only [Store.Get, hl]
      rw [if_pos (by omega)]
    · simp only [Store.Get, hl]

theorem expiry_is_lazy_and_absolute_witness :
    (sweepAll ⟨[("abc123", samplePaste)]⟩ [50]).Get 80 "abc123" = some samplePaste ∧
    (sweepAll ⟨[("abc123", samplePaste)]⟩ [50]).Get 101 "abc123" = none :=
  expiry_is_lazy_and_absolute ⟨[("abc123", samplePaste)]⟩ [50] "abc123" samplePaste
    80 101 0 100 (by decide) rfl rfl (by decide) (by decide) (by decide)

/-- **C10** — `Get` and `CountActive` use opposite strict comparisons at
the expiry boundary: at the instant `now = ExpiresAt` the object is still
returned by `Get` (expiry requires `now` strictly after `ExpiresAt`), yet
it contributes nothing to `CountActive` (which counts only objects whose
`ExpiresAt` is strictly in the future). -/
theorem get_found_countActive_excludes_at_boundary (id : String) (p : Paste)
    (rest : List (String × Paste)) (now : Nat) (h : p.ExpiresAt = now) :
    Store.Get ⟨(id, p) :: rest⟩ now id = some p ∧
    Store.CountActive ⟨(id, p) :: rest⟩ now = Store.CountActive ⟨rest⟩ now := by
  constructor
  · have hl : mapLookup id ((id, p) :: rest) = some p := by
      rw [mapLookup_cons, if_pos rfl]
    simp only [Store.Get, hl]
    rw [h]
    simp
  · simp only [Store.CountActive, List.filter_cons]
    rw [h]
    simp

theorem get_found_countActive_excludes_at_boundary_witness :
    Store.Get ⟨[("abc123", samplePaste)]⟩ 100 "abc123" = some samplePaste ∧
    Store.CountActive ⟨[("abc123", samplePaste)]⟩ 100 = Store.CountActive ⟨[]⟩ 100 :=
  get_found_countActive_excludes_at_boundary "abc123" samplePaste [] 100 rfl

/-! ## Access policy (`canEditPaste`, part_005 / `main.go`) -/

/-- Resolve the presented edit token as `canEditPaste` does: the `key`
query parameter or, when that is empty, the `npk_<id>` cookie value when
the cookie is present. -/
def resolveEditKey (queryKey : String) (cookie : Option String) : String :=
  if queryKey = "" then cookie.getD "" else queryKey

/-- `canEditPaste`: pure authorization policy.  False for non-editable
pastes; otherwise true exactly when the resolved token is non-empty and
equals the stored `EditKey`. -/
def canEditPaste (p : Paste) (queryKey : String) (cookie : Option String) : Bool :=
  if !p.Editable then false
  else
    let key := resolveEditKey queryKey cookie
    key != "" && key == p.EditKey

/-- **C4** — `canEditPaste` returns true iff the object is editable, the
presented (resolved) token is non-empty, and the token equals the stored
edit key; empty tokens, wrong tokens, and non-editable objects all give
false. -/
theorem canEdit_iff (p : Paste) (queryKey : String) (cookie : Option String) :
    canEditPaste p queryKey cookie = true ↔
      p.Editable = true ∧ resolveEditKey queryKey cookie ≠ "" ∧
        resolveEditKey queryKey cookie = p.EditKey := by
  unfold canEditPaste
  cases hE : p.Editable with
  | false => simp
  | true => simp [and_assoc]

/-! ## Identifier generator (`util.NewID`, part_001) -/

/-- The alphabet of Go's `base64.RawURLEncoding`. -/
def b64urlChar (n : Nat) : Char :=
  "ABCDEFGHIJKLMNOPQRSTUVWXYZabcdefghijklmnopqrstuvwxyz0123456789-_".data.getD n 'A'

/-- Unpadded URL-safe base64 of a byte list (`base64.RawURLEncoding`,
from Go's standard library): groups of three bytes become four alphabet
characters, with two- and three-character tails for short final groups. -/
def base64url : List Nat → List Char
  | [] => []
  | [a] => [b64urlChar (a / 4), b64urlChar (a % 4 * 16)]
  | [a, b] => [b64urlChar (a / 4), b64urlChar (a % 4 * 16 + b / 16), b64urlChar (b % 16 * 4)]
  | a :: b :: c :: rest =>
    b64urlChar (a / 4) :: b64urlChar (a % 4 * 16 + b / 16) ::
      b64urlChar (b % 16 * 4 + c / 64) :: b64urlChar (c % 64) :: base64url rest

/-- `util.NewID`: base64url-encode the `n` bytes read from `crypto/rand`
(`randBytes = some b`); when the secure source fails (`randBytes = none`),
fall back to encoding the bytes of a `time.Now().Format("150405.000")`
clock string instead of aborting. -/
def NewID (randBytes : Option (List Nat)) (clockBytes : List Nat) : String :=
  ⟨base64url (randBytes.getD clockBytes)⟩

theorem base64url_ne_nil (b : List Nat) (h : b ≠ []) : base64url b ≠ [] := by
  cases b with
  | nil => exact absurd rfl h
  | cons a t =>
    cases t with
    | nil => simp [base64url]
    | cons b2 t2 =>
      cases t2 with
      | nil => simp [base64url]
      | cons c t3 => simp [base64url]

theorem NewID_ne_empty (randBytes : Option (List Nat)) (clockBytes : List Nat)
    (h : randBytes.getD clockBytes ≠ []) : NewID randBytes clockBytes ≠ "" := by
  unfold NewID
  intro he
  exact base64url_ne_nil _ h (congrArg String.data he)

/-! ## TTL parsing (`util.ParseTTL`, part_000) and paste construction -/

/-- `time.Hour` in nanoseconds. -/
def goHour : Nat := 3600000000000

/-- `util.ParseTTL`: the symbolic vocabulary `1h`, `24h`, `168h`/`7d` and
the empty string (defaulting to 24h); anything else goes to Go's
`time.ParseDuration` general duration syntax, which is standard-library
code outside this repository and is passed in as `parseDuration`. -/
def ParseTTL (parseDuration : String → Option Nat) (s : String) : Option Nat :=
  if s = "1h" then some goHour
  else if s = "24h" then some (24 * goHour)
  else if s = "168h" then some (168 * goHour)
  else if s = "7d" then some (168 * goHour)
  else if s = "" then some (24 * goHour)
  else parseDuration s

/-- `httpx.Langs` (`server.go`). -/
def Langs : List String :=
  ["plaintext", "go", "javascript", "typescript", "json", "yaml", "toml",
   "python", "bash", "html", "css", "sql", "markdown"]

/-- `httpx.Themes` (`server.go`). -/
def Themes : List String := ["dark", "light"]

/-- `Server.normalizeLang`: unknown tags fall back to `plaintext`. -/
def normalizeLang (lang : String) : String :=
  if !(Langs.contains lang) then "plaintext" else lang

/-- Go's `strings.TrimSpace`: drop whitespace from both ends of the
string (standard-library code outside this repository, modelled over the
ASCII whitespace characters `Char.isWhitespace` recognizes). -/
def trimSpace (s : String) : String :=
  ⟨((s.data.dropWhile Char.isWhitespace).reverse.dropWhile Char.isWhitespace).reverse⟩

/-- The two error returns of `Server.buildPaste`. -/
inductive BuildErr where
  | emptyContent
  | invalidTTL
deriving DecidableEq, Repr

/-- `Server.buildPaste` (part_005): validate and build a paste whole.
`idStr` and `keyStr` are the results of the `util.NewID(8)` and
`util.NewID(12)` calls; `now` is `time.Now()`. -/
def buildPaste (parseDuration : String → Option Nat) (now : Nat)
    (idStr keyStr : String) (code lang ttl theme : String)
    (editable : Bool) (author : String) : Except BuildErr Paste :=
  let code := trimSpace code
  if code = "" then .error .emptyContent
  else
    let lang := normalizeLang lang
    let theme := if !(Themes.contains theme) then "dark" else theme
    match ParseTTL parseDuration ttl with
    | none => .error .invalidTTL
    | some dur =>
      .ok { ID := idStr, Lang := lang, Code := code, Theme := theme,
            ExpiresAt := now + dur, Editable := editable,
            EditKey := if editable then keyStr else "", Author := author,
            Versions := [{ ZCode := GzipEncode code, Lang := lang,
                           Author := author, At := now }],
            CreatedAt := now, UpdatedAt := now }

/-- **C7** — `buildPaste` rejects content that is empty after trimming
with the `EmptyContent` error (no object is built); an unparseable TTL is
rejected with `InvalidTTL`; `ParseTTL` sends the symbolic vocabulary
`1h`/`24h`/`168h`/`7d`/`""` to the corresponding durations and everything
else to the general duration syntax; and every successful build has
exactly one version, an edit key that is non-empty iff `editable` was
requested, and `ExpiresAt` equal to the creation time plus the parsed
TTL. -/
theorem create_contract (parseDuration : String → Option Nat) (now : Nat)
    (idStr : String) (randBytes : Option (List Nat)) (clockBytes : List Nat)
    (code lang ttl theme : String) (editable : Bool) (author : String)
    (hkey : randBytes.getD clockBytes ≠ []) :
    (trimSpace code = "" →
      buildPaste parseDuration now idStr (NewID randBytes clockBytes)
        code lang ttl theme editable author = .error .emptyContent) ∧
    (ParseTTL parseDuration ttl = none →
      buildPaste parseDuration now idStr (NewID randBytes clockBytes)
        code lang ttl theme editable author = .error .invalidTTL ∨ trimSpace code = "") ∧
    (ParseTTL parseDuration "1h" = some goHour ∧
     ParseTTL parseDuration "24h" = some (24 * goHour) ∧
     ParseTTL parseDuration "168h" = some (168 * goHour) ∧
     ParseTTL parseDuration "7d" = some (168 * goHour) ∧
     ParseTTL parseDuration "" = some (24 * goHour)) ∧
    (ttl ∉ (["1h", "24h", "168h", "7d", ""] : List String) →
      ParseTTL parseDuration ttl = parseDuration ttl) ∧
    (∀ p dur,
      buildPaste parseDuration now idStr (NewID randBytes clockBytes)
        code lang ttl theme editable author = .ok p →
      ParseTTL parseDuration ttl = some dur →
      p.Versions.length = 1 ∧ (p.EditKey ≠ "" ↔ editable = true) ∧
        p.ExpiresAt = p.CreatedAt + dur ∧ p.CreatedAt = now) := by
  refine ⟨?_, ?_, ⟨rfl, rfl, rfl, rfl, rfl⟩, ?_, ?_⟩
  · intro h
    simp [buildPaste, h]
  · intro httl
    by_cases hc : trimSpace code = ""
    · exact .inr hc
    · refine .inl ?_
      simp [buildPaste, hc, httl]
  · intro h
    have h1 : ttl ≠ "1h" := fun he => h (by simp [he])
    have h2 : ttl ≠ "24h" := fun he => h (by simp [he])
    have h3 : ttl ≠ "168h" := fun he => h (by simp [he])
    have h4 : ttl ≠ "7d" := fun he => h (by simp [he])
    have h5 : ttl ≠ "" := fun he => h (by simp [he])
    rw [ParseTTL, if_neg h1, if_neg h2, if_neg h3, if_neg h4, if_neg h5]
  · intro p dur hok httl
    simp only [buildPaste, httl] at hok
    by_cases hc : trimSpace code = ""
    · rw [if_pos hc] at hok
      exact absurd hok (by simp)
    · rw [if_neg hc] at hok
      rw [Except.ok.injEq] at hok
      subst hok
      refine ⟨rfl, ?_, rfl, rfl⟩
      cases editable <;>
        simp [NewID_ne_empty randBytes clockBytes hkey]

theorem create_contract_witness :
    buildPaste (fun _ => none) 5 "idA" (NewID (some [1, 2, 3]) [49])
      "   " "go" "1h" "dark" true "bob" = .error .emptyContent :=
  (create_contract (fun _ => none) 5 "idA" (some [1, 2, 3]) [49]
    "   " "go" "1h" "dark" true "bob" (by decide)).1 (by decide)

/-! ## The append-version operation (`handleEditSave` / `handleAPIEdit`) -/

/-- The shared post-validation logic of `handleEditSave` and
`handleAPIEdit`: compare the submitted content and language with the
current (last) version — `prevCode, _ := util.GzipDecode(last.ZCode)`
leaves the empty string when decoding fails — append a new immutable
`Version` only when one of them differs, then refresh `Code`, `Lang`,
`Author` (only when the submitted author is non-empty) and `UpdatedAt`.
When `Versions` is empty the Go code panics on the `len-1` index;
store-created pastes always have one version, and the model returns the
paste unchanged in that unreachable case. -/
def editSaveCore (p : Paste) (code lang author : String) (now : Nat) : Paste :=
  match p.Versions.getLast? with
  | none => p
  | some last =>
    { p with
      Versions :=
        if code ≠ (GzipDecode last.ZCode).toOption.getD "" ∨ lang ≠ last.Lang then
          p.Versions ++ [{ ZCode := GzipEncode code, Lang := lang, Author := author, At := now }]
        else p.Versions,
      Code := code, Lang := lang,
      Author := if author ≠ "" then author else p.Author,
      UpdatedAt := now }

/-- The text `handleRaw` writes for a paste: the decoded last version
(`sText, _ := util.GzipDecode(...)` discards the decode error, leaving
the empty string), or `p.Code` when there are no versions. -/
def rawContent (p : Paste) : String :=
  match p.Versions.getLast? with
  | some v => (GzipDecode v.ZCode).toOption.getD ""
  | none => p.Code

/-- Helper: the codec round trip, shared by several developments below. -/
theorem gzipDecode_gzipEncode (s : String) : GzipDecode (GzipEncode s) = .ok s := by
  rw [GzipEncode, GzipDecode, rleDecode_rleEncode]
  cases s
  rfl

/-- Helper: `editSaveCore` only touches `Versions`, `Code`, `Lang`,
`Author` and `UpdatedAt`. -/
theorem editSaveCore_preserves (p : Paste) (code lang author : String) (now : Nat) :
    (editSaveCore p code lang author now).ID = p.ID ∧
    (editSaveCore p code lang author now).ExpiresAt = p.ExpiresAt ∧
    (editSaveCore p code lang author now).Editable = p.Editable ∧
    (editSaveCore p code lang author now).EditKey = p.EditKey ∧
    (editSaveCore p code lang author now).CreatedAt = p.CreatedAt := by
  unfold editSaveCore
  cases p.Versions.getLast? <;> simp

/-- Helper: `Get` immediately after `Put` of the same identifier returns
the object just written, as long as it has not expired. -/
theorem get_put_same (s : Store) (p : Paste) (now : Nat) (h : ¬ p.ExpiresAt < now) :
    (s.Put p).Get now p.ID = some p := by
  have hl : mapLookup p.ID (s.Put p).items = some p := by
    simp only [Store.Put]
    rw [mapLookup_cons, if_pos rfl]
  simp only [Store.Get, hl]
  rw [if_neg h]

/-- **C9** — an accepted append-version call never changes `ExpiresAt`
(editing does not extend or reset the TTL), nor `ID`, `Editable`,
`EditKey` or `CreatedAt`. -/
theorem append_version_frame (p : Paste) (code lang author : String) (now : Nat) :
    (editSaveCore p code lang author now).ExpiresAt = p.ExpiresAt ∧
    (editSaveCore p code lang author now).ID = p.ID ∧
    (editSaveCore p code lang author now).Editable = p.Editable ∧
    (editSaveCore p code lang author now).EditKey = p.EditKey ∧
    (editSaveCore p code lang author now).CreatedAt = p.CreatedAt := by
  obtain ⟨h1, h2, h3, h4, h5⟩ := editSaveCore_preserves p code lang author now
  exact ⟨h2, h1, h3, h4, h5⟩

/-- **C5** — an accepted append whose content differs from the current
(last) version appends exactly one new version, and that version is what
subsequent reads return as current: `Get` after `Put` yields the updated
object and the raw read of it returns the new content. -/
theorem append_differing_content (s : Store) (p : Paste) (code lang author : String)
    (now now2 : Nat) (last : Version)
    (hlast : p.Versions.getLast? = some last)
    (hdiff : code ≠ (GzipDecode last.ZCode).toOption.getD "")
    (hnow2 : ¬ p.ExpiresAt < now2) :
    (editSaveCore p code lang author now).Versions.length = p.Versions.length + 1 ∧
    (s.Put (editSaveCore p code lang author now)).Get now2 p.ID =
      some (editSaveCore p code lang author now) ∧
    rawContent (editSaveCore p code lang author now) = code := by
  have hcore : (editSaveCore p code lang author now).Versions =
      p.Versions ++ [{ ZCode := GzipEncode code, Lang := lang, Author := author, At := now }] := by
    simp only [editSaveCore, hlast]
    rw [if_pos (Or.inl hdiff)]
  refine ⟨?_, ?_, ?_⟩
  · rw [hcore]
    simp
  · obtain ⟨hid, hexp, _, _, _⟩ := editSaveCore_preserves p code lang author now
    have hg := get_put_same s (editSaveCore p code lang author now) now2
      (by rw [hexp]; exact hnow2)
    rw [hid] at hg
    exact hg
  · rw [rawContent.eq_def, hcore, List.getLast?_concat]
    simp [gzipDecode_gzipEncode, Except.toOption]

theorem append_differing_content_witness :
    (editSaveCore samplePaste "print(2)" "python" "bob" 7).Versions.length =
      samplePaste.Versions.length + 1 ∧
    ((⟨[]⟩ : Store).Put (editSaveCore samplePaste "print(2)" "python" "bob" 7)).Get 50
      samplePaste.ID = some (editSaveCore samplePaste "print(2)" "python" "bob" 7) ∧
    rawContent (editSaveCore samplePaste "print(2)" "python" "bob" 7) = "print(2)" :=
  append_differing_content ⟨[]⟩ samplePaste "print(2)" "python" "bob" 7 50
    { ZCode := GzipEncode "print(1)", Lang := "python", Author := "", At := 0 }
    rfl (by decide) (by decide)

/-- **C6** — an accepted append whose content and language both equal
those of the current (last) version appends nothing: `Versions` is
unchanged, while `UpdatedAt` is refreshed and `Author` is refreshed
exactly when the submitted author is non-empty. -/
theorem noop_edit_refreshes_metadata (p : Paste) (code lang author : String) (now : Nat)
    (last : Version) (hlast : p.Versions.getLast? = some last)
    (hcode : code = (GzipDecode last.ZCode).toOption.getD "")
    (hlang : lang = last.Lang) :
    (editSaveCore p code lang author now).Versions = p.Versions ∧
    (editSaveCore p code lang author now).UpdatedAt = now ∧
    (author ≠ "" → (editSaveCore p code lang author now).Author = author) ∧
    (author = "" → (editSaveCore p code lang author now).Author = p.Author) := by
  simp only [editSaveCore, hlast]
  rw [if_neg (by simp [hcode, hlang])]
  refine ⟨by simp, by simp, fun h => by simp [h], fun h => by simp [h]⟩

theorem noop_edit_refreshes_metadata_witness :
    (editSaveCore samplePaste "print(1)" "python" "bob" 7).Versions = samplePaste.Versions ∧
    (editSaveCore samplePaste "print(1)" "python" "bob" 7).UpdatedAt = 7 ∧
    (editSaveCore samplePaste "print(1)" "python" "bob" 7).Author = "bob" :=
  have h := noop_edit_refreshes_metadata samplePaste "print(1)" "python" "bob" 7
    { ZCode := GzipEncode "print(1)", Lang := "python", Author := "", At := 0 }
    rfl (by decide) rfl
  ⟨h.1, h.2.1, h.2.2.1 (by decide)⟩

/-! ## HTTP handlers (part_005) -/

/-- The handler responses, abstracted from `net/http` status writing. -/
inductive HResp where
  | notFound
  | unauthorized
  | forbidden
  | badRequest (msg : String)
  | redirect (loc : String)
  | body (text : String)
  | jsonVersions (versions : Nat)
deriving DecidableEq, Repr

/-- `handleRaw`: GET `/raw/id` — 404 when the store reports not-found,
otherwise a 200 text body (see `rawContent` for the decode handling). -/
def handleRaw (s : Store) (now : Nat) (id : String) : HResp :=
  match s.Get now id with
  | none => .notFound
  | some p => .body (rawContent p)

/-- The content string `handleView` renders for the (0-based) version
index `vIdx`: `currVer := p.Versions[vIdx]`, then
`code, _ := util.GzipDecode(currVer.ZCode)` discards the decode error,
leaving the empty string. -/
def viewContent (p : Paste) (vIdx : Nat) : String :=
  (GzipDecode (p.Versions.getD vIdx
    { ZCode := [], Lang := "", Author := "", At := 0 }).ZCode).toOption.getD ""

/-- `handleEditSave`: POST `/p/id/edit`.  `Store.Get` and `Store.Put`
each take the store lock once; everything in between runs on the copied
snapshot. -/
def handleEditSave (s : Store) (now : Nat) (id queryKey : String)
    (cookie : Option String) (formCode formLang formAuthor : String) : HResp × Store :=
  match s.Get now id with
  | none => (.notFound, s)
  | some p =>
    if !canEditPaste p queryKey cookie then (.forbidden, s)
    else
      let code := trimSpace formCode
      let lang := normalizeLang (trimSpace formLang)
      let author := trimSpace formAuthor
      if code = "" then (.badRequest "Code darf nicht leer sein", s)
      else
        let p2 := editSaveCore p code lang author now
        (.redirect ("/p/" ++ p2.ID ++ "?v=" ++ toString p2.Versions.length), s.Put p2)

/-- `handleAPIEdit`: POST `/api/paste/id/edit`; authorization is the
`key` query parameter alone (no cookie fallback). -/
def handleAPIEdit (s : Store) (now : Nat) (id key reqCode reqLang reqAuthor : String) :
    HResp × Store :=
  match s.Get now id with
  | none => (.notFound, s)
  | some p =>
    if key = "" then (.unauthorized, s)
    else if !p.Editable || key != p.EditKey then (.forbidden, s)
    else
      let code := trimSpace reqCode
      if code = "" then (.badRequest "code empty", s)
      else
        let lang := normalizeLang reqLang
        let author := trimSpace reqAuthor
        let p2 := editSaveCore p code lang author now
        (.jsonVersions p2.Versions.length, s.Put p2)

/-- A paste whose stored bytes are not validly encoded: `[31, 139, 5]`
passes the magic check but truncates in the middle of a pair. -/
def corruptPaste : Paste :=
  { ID := "bad1", Lang := "python", Code := "print(1)", Theme := "dark",
    ExpiresAt := 100, Editable := false, EditKey := "", Author := "",
    Versions := [{ ZCode := [31, 139, 5], Lang := "python", Author := "", At := 0 }],
    CreatedAt := 0, UpdatedAt := 0 }

/-- **C8** (counterexample) — the claim requires decode failures to be
surfaced to the caller, but for the concrete paste whose stored bytes
fail to decode, `handleRaw` answers with a successful 200 body holding
the empty string substituted for the version's text, and `handleView`'s
content selection substitutes the empty string the same way. -/
theorem decode_failure_not_surfaced :
    GzipDecode [31, 139, 5] = .error "gzip: unexpected EOF" ∧
    corruptPaste.Versions.map Version.ZCode = [[31, 139, 5]] ∧
    handleRaw ⟨[("bad1", corruptPaste)]⟩ 10 "bad1" = .body "" ∧
    viewContent corruptPaste (corruptPaste.Versions.length - 1) = "" :=
  ⟨rfl, rfl, rfl, rfl⟩

/-- **C8** (amended) — when decoding a version's stored bytes fails, the
read handlers ignore the error (`sText, _ := util.GzipDecode(...)`) and
silently substitute the empty string for the version's text: `handleRaw`
serves a 200 body with empty content instead of surfacing the failure. -/
theorem decode_failure_substitutes_empty (s : Store) (now : Nat) (id : String)
    (p : Paste) (v : Version) (e : String)
    (hget : s.Get now id = some p) (hlast : p.Versions.getLast? = some v)
    (hdec : GzipDecode v.ZCode = .error e) :
    handleRaw s now id = .body "" := by
  simp only [handleRaw, hget, rawContent.eq_def, hlast, hdec]
  simp [Except.toOption]

theorem decode_failure_substitutes_empty_witness :
    handleRaw ⟨[("bad1", corruptPaste)]⟩ 10 "bad1" = .body "" :=
  decode_failure_substitutes_empty ⟨[("bad1", corruptPaste)]⟩ 10 "bad1" corruptPaste
    { ZCode := [31, 139, 5], Lang := "python", Author := "", At := 0 }
    "gzip: unexpected EOF" rfl rfl rfl

/-! ## Concurrency: two concurrent `handleEditSave` calls

In Go each request runs in its own goroutine.  `Store.Get` and
`Store.Put` are individually atomic (each takes the `sync.RWMutex`), but
the lock is released between them, so two edit-save calls on the same
identifier interleave as sequences of two atomic store actions.
`threadStep` performs one call's next atomic action; `runTwo` executes a
schedule, `true` stepping the first call. -/

/-- The request-derived inputs of one `handleEditSave` call. -/
structure EditCall where
  id : String
  queryKey : String
  cookie : Option String
  code : String
  lang : String
  author : String
  now : Nat
deriving DecidableEq, Repr

/-- Progress of one call: before its `Get`, between `Get` and `Put`
(holding the snapshot), or finished with a response. -/
inductive ThreadPhase where
  | start
  | readDone (snap : Option Paste)
  | finished (resp : HResp)
deriving DecidableEq, Repr

/-- One atomic action of a `handleEditSave` call: its `Store.Get`, or —
once the snapshot is taken — the validation on the snapshot followed by
its `Store.Put` (rejections do not touch the store). -/
def threadStep (c : EditCall) (s : Store) : ThreadPhase → Store × ThreadPhase
  | .start => (s, .readDone (s.Get c.now c.id))
  | .readDone none => (s, .finished .notFound)
  | .readDone (some p) =>
    if !canEditPaste p c.queryKey c.cookie then (s, .finished .forbidden)
    else
      let code := trimSpace c.code
      let lang := normalizeLang (trimSpace c.lang)
      let author := trimSpace c.author
      if code = "" then (s, .finished (.badRequest "Code darf nicht leer sein"))
      else
        let p2 := editSaveCore p code lang author c.now
        (s.Put p2,
         .finished (.redirect ("/p/" ++ p2.ID ++ "?v=" ++ toString p2.Versions.length)))
  | .finished r => (s, .finished r)

/-- Interleave the atomic actions of two calls under a schedule. -/
def runTwo (cA cB : EditCall) : List Bool → Store × ThreadPhase × ThreadPhase →
    Store × ThreadPhase × ThreadPhase
  | [], st => st
  | b :: rest, (s, tA, tB) =>
    if b then
      runTwo cA cB rest ((threadStep cA s tA).1, (threadStep cA s tA).2, tB)
    else
      runTwo cA cB rest ((threadStep cB s tB).1, tA, (threadStep cB s tB).2)

/-- Did the response report success (the post-save redirect)? -/
def HResp.isRedirect : HResp → Bool
  | .redirect _ => true
  | _ => false

/-- Did the call finish successfully? -/
def ThreadPhase.succeeded : ThreadPhase → Bool
  | .finished r => r.isRedirect
  | _ => false

/-- A concrete live editable paste with one version. -/
def editablePaste : Paste :=
  { ID := "ed1", Lang := "python", Code := "print(1)", Theme := "dark",
    ExpiresAt := 1000, Editable := true, EditKey := "sekret", Author := "alice",
    Versions := [{ ZCode := GzipEncode "print(1)", Lang := "python",
                   Author := "alice", At := 0 }],
    CreatedAt := 0, UpdatedAt := 0 }

/-- A concrete edit-save call submitting `print(2)`. -/
def callA : EditCall :=
  { id := "ed1", queryKey := "sekret", cookie := none, code := "print(2)",
    lang := "python", author := "bob", now := 10 }

/-- A concrete edit-save call submitting `print(3)`. -/
def callB : EditCall :=
  { id := "ed1", queryKey := "sekret", cookie := none, code := "print(3)",
    lang := "python", author := "carol", now := 11 }

/-- **C2** (counterexample) — both concurrent calls report success, yet
under the schedule read-A, read-B, write-A, write-B the final object has
2 versions, not 1 + 2 = 3: the first call's append is silently lost,
because the store lock is released between each call's `Get` and `Put`,
so the read-compare-append-write sequence is not atomic. -/
theorem concurrent_append_loses_update :
    editablePaste.Versions.length = 1 ∧
    (runTwo callA callB [true, false, true, false]
      (⟨[("ed1", editablePaste)]⟩, .start, .start)).2.1.succeeded = true ∧
    (runTwo callA callB [true, false, true, false]
      (⟨[("ed1", editablePaste)]⟩, .start, .start)).2.2.succeeded = true ∧
    (mapLookup "ed1" (runTwo callA callB [true, false, true, false]
      (⟨[("ed1", editablePaste)]⟩, .start, .start)).1.items).map
        (fun q => q.Versions.length) = some 2 :=
  ⟨rfl, rfl, rfl, rfl⟩

/-- Helper: `Get` through a known binding that has not expired. -/
theorem get_of_lookup (s : Store) (id : String) (p : Paste) (now : Nat)
    (hlk : mapLookup id s.items = some p) (h : ¬ p.ExpiresAt < now) :
    s.Get now id = some p := by
  simp only [Store.Get, hlk]
  rw [if_neg h]

/-- Helper: the access policy depends only on `Editable` and `EditKey`. -/
theorem canEditPaste_congr (q p : Paste) (qk : String) (ck : Option String)
    (hE : q.Editable = p.Editable) (hK : q.EditKey = p.EditKey) :
    canEditPaste q qk ck = canEditPaste p qk ck := by
  unfold canEditPaste
  rw [hE, hK]

/-- The object an edit-save call writes back from snapshot `p`. -/
def editResult (c : EditCall) (p : Paste) : Paste :=
  editSaveCore p (trimSpace c.code) (normalizeLang (trimSpace c.lang))
    (trimSpace c.author) c.now

/-- The `model.Version` value an edit-save call appends. -/
def newVersion (c : EditCall) : Version :=
  { ZCode := GzipEncode (trimSpace c.code), Lang := normalizeLang (trimSpace c.lang),
    Author := trimSpace c.author, At := c.now }

/-- Helper: `editResult` keeps `ID`, `ExpiresAt`, `Editable`, `EditKey`
and `CreatedAt` of the snapshot. -/
theorem editResult_preserves (c : EditCall) (p : Paste) :
    (editResult c p).ID = p.ID ∧ (editResult c p).ExpiresAt = p.ExpiresAt ∧
    (editResult c p).Editable = p.Editable ∧ (editResult c p).EditKey = p.EditKey ∧
    (editResult c p).CreatedAt = p.CreatedAt :=
  editSaveCore_preserves p (trimSpace c.code) (normalizeLang (trimSpace c.lang))
    (trimSpace c.author) c.now

/-- Helper: when the submitted content differs from the decoded current
version, the written-back object appends exactly `newVersion c`. -/
theorem editResult_versions_append (c : EditCall) (q : Paste) (v : Version)
    (hlastq : q.Versions.getLast? = some v)
    (hdiffq : trimSpace c.code ≠ (GzipDecode v.ZCode).toOption.getD "") :
    (editResult c q).Versions = q.Versions ++ [newVersion c] := by
  simp only [editResult, editSaveCore, hlastq]
  rw [if_pos (Or.inl hdiffq)]
  rfl

theorem threadStep_start (c : EditCall) (s : Store) :
    threadStep c s .start = (s, .readDone (s.Get c.now c.id)) := rfl

theorem threadStep_write (c : EditCall) (s : Store) (p : Paste)
    (hce : canEditPaste p c.queryKey c.cookie = true) (hne : trimSpace c.code ≠ "") :
    threadStep c s (.readDone (some p)) =
      (s.Put (editResult c p),
       .finished (.redirect ("/p/" ++ (editResult c p).ID ++ "?v=" ++
         toString (editResult c p).Versions.length))) := by
  simp [threadStep, editResult, hce, hne]

theorem runTwo_nil (cA cB : EditCall) (st : Store × ThreadPhase × ThreadPhase) :
    runTwo cA cB [] st = st := rfl

theorem runTwo_cons_left (cA cB : EditCall) (rest : List Bool) (s : Store)
    (tA tB : ThreadPhase) :
    runTwo cA cB (true :: rest) (s, tA, tB) =
      runTwo cA cB rest ((threadStep cA s tA).1, (threadStep cA s tA).2, tB) := rfl

theorem runTwo_cons_right (cA cB : EditCall) (rest : List Bool) (s : Store)
    (tA tB : ThreadPhase) :
    runTwo cA cB (false :: rest) (s, tA, tB) =
      runTwo cA cB rest ((threadStep cB s tB).1, tA, (threadStep cB s tB).2) := rfl

/-- **C2** (amended) — each call's `Get` and `Put` are individually
atomic, and both calls always report success; but the
read-compare-append-write sequence is not atomic with respect to other
calls on the same identifier: when the calls serialize (the second reads
after the first wrote) the final versions length is the initial length
plus two, while under the interleaving in which both calls read before
either writes, the first call's append is silently lost and the final
length is the initial length plus one. -/
theorem concurrent_edits_not_atomic (s : Store) (id : String) (cA cB : EditCall)
    (p : Paste) (last : Version)
    (hidA : cA.id = id) (hidB : cB.id = id) (hpid : p.ID = id)
    (hlk : mapLookup id s.items = some p)
    (hliveA : ¬ p.ExpiresAt < cA.now) (hliveB : ¬ p.ExpiresAt < cB.now)
    (hceA : canEditPaste p cA.queryKey cA.cookie = true)
    (hceB : canEditPaste p cB.queryKey cB.cookie = true)
    (hlast : p.Versions.getLast? = some last)
    (hneA : trimSpace cA.code ≠ "") (hneB : trimSpace cB.code ≠ "")
    (hdiffA : trimSpace cA.code ≠ (GzipDecode last.ZCode).toOption.getD "")
    (hdiffB : trimSpace cB.code ≠ (GzipDecode last.ZCode).toOption.getD "")
    (hBA : trimSpace cB.code ≠ trimSpace cA.code) :
    ((mapLookup id (runTwo cA cB [true, true, false, false] (s, .start, .start)).1.items).map
        (fun q => q.Versions.length) = some (p.Versions.length + 2)) ∧
    ((runTwo cA cB [true, false, true, false] (s, .start, .start)).2.1.succeeded = true) ∧
    ((runTwo cA cB [true, false, true, false] (s, .start, .start)).2.2.succeeded = true) ∧
    ((mapLookup id (runTwo cA cB [true, false, true, false] (s, .start, .start)).1.items).map
        (fun q => q.Versions.length) = some (p.Versions.length + 1)) := by
  have hgA : s.Get cA.now cA.id = some p := by
    rw [hidA]
    exact get_of_lookup s id p cA.now hlk hliveA
  have hgB : s.Get cB.now cB.id = some p := by
    rw [hidB]
    exact get_of_lookup s id p cB.now hlk hliveB
  have hframeA := editResult_preserves cA p
  have hframeB := editResult_preserves cB p
  have hvA : (editResult cA p).Versions = p.Versions ++ [newVersion cA] :=
    editResult_versions_append cA p last hlast hdiffA
  have hvB : (editResult cB p).Versions = p.Versions ++ [newVersion cB] :=
    editResult_versions_append cB p last hlast hdiffB
  have hgB2 : (s.Put (editResult cA p)).Get cB.now cB.id = some (editResult cA p) := by
    rw [hidB, ← hpid, ← hframeA.1]
    exact get_put_same s _ cB.now (by rw [hframeA.2.1]; exact hliveB)
  have hceB2 : canEditPaste (editResult cA p) cB.queryKey cB.cookie = true := by
    rw [canEditPaste_congr _ p cB.queryKey cB.cookie hframeA.2.2.1 hframeA.2.2.2.1]
    exact hceB
  have hlastA : (editResult cA p).Versions.getLast? = some (newVersion cA) := by
    rw [hvA, List.getLast?_concat]
  have hvB2 : (editResult cB (editResult cA p)).Versions =
      (editResult cA p).Versions ++ [newVersion cB] :=
    editResult_versions_append cB (editResult cA p) (newVersion cA) hlastA (by
      rw [show (newVersion cA).ZCode = GzipEncode (trimSpace cA.code) from rfl,
        gzipDecode_gzipEncode]
      simpa [Except.toOption] using hBA)
  have hframeBA := editResult_preserves cB (editResult cA p)
  refine ⟨?_, ?_, ?_, ?_⟩
  · rw [runTwo_cons_left, threadStep_start]
    dsimp only
    rw [hgA, runTwo_cons_left, threadStep_write cA s p hceA hneA]
    dsimp only
    rw [runTwo_cons_right, threadStep_start]
    dsimp only
    rw [hgB2, runTwo_cons_right,
      threadStep_write cB (s.Put (editResult cA p)) (editResult cA p) hceB2 hneB]
    dsimp only
    rw [runTwo_nil]
    dsimp only
    have hfin : mapLookup id
        (((s.Put (editResult cA p)).Put (editResult cB (editResult cA p)))).items =
        some (editResult cB (editResult cA p)) := by
      simp only [Store.Put]
      rw [mapLookup_cons, if_pos (by rw [hframeBA.1, hframeA.1, hpid])]
    rw [hfin]
    simp only [Option.map]
    rw [hvB2, hvA]
    simp [List.length_append]
  · rw [runTwo_cons_left, threadStep_start]
    dsimp only
    rw [hgA, runTwo_cons_right, threadStep_start]
    dsimp only
    rw [hgB, runTwo_cons_left, threadStep_write cA s p hceA hneA]
    dsimp only
    rw [runTwo_cons_right, threadStep_write cB (s.Put (editResult cA p)) p hceB hneB]
    dsimp only
    rw [runTwo_nil]
    rfl
  · rw [runTwo_cons_left, threadStep_start]
    dsimp only
    rw [hgA, runTwo_cons_right, threadStep_start]
    dsimp only
    rw [hgB, runTwo_cons_left, threadStep_write cA s p hceA hneA]
    dsimp only
    rw [runTwo_cons_right, threadStep_write cB (s.Put (editResult cA p)) p hceB hneB]
    dsimp only
    rw [runTwo_nil]
    rfl
  · rw [runTwo_cons_left, threadStep_start]
    dsimp only
    rw [hgA, runTwo_cons_right, threadStep_start]
    dsimp only
    rw [hgB, runTwo_cons_left, threadStep_write cA s p hceA hneA]
    dsimp only
    rw [runTwo_cons_right, threadStep_write cB (s.Put (editResult cA p)) p hceB hneB]
    dsimp only
    rw [runTwo_nil]
    dsimp only
    have hfin : mapLookup id
        (((s.Put (editResult cA p)).Put (editResult cB p))).items =
        some (editResult cB p) := by
      simp only [Store.Put]
      rw [mapLookup_cons, if_pos (by rw [hframeB.1, hpid])]
    rw [hfin]
    simp only [Option.map]
    rw [hvB]
    simp [List.length_append]

theorem concurrent_edits_not_atomic_witness :
    ((mapLookup "ed1" (runTwo callA callB [true, true, false, false]
        (⟨[("ed1", editablePaste)]⟩, .start, .start)).1.items).map
        (fun q => q.Versions.length) = some (editablePaste.Versions.length + 2)) ∧
    ((runTwo callA callB [true, false, true, false]
        (⟨[("ed1", editablePaste)]⟩, .start, .start)).2.1.succeeded = true) ∧
    ((runTwo callA callB [true, false, true, false]
        (⟨[("ed1", editablePaste)]⟩, .start, .start)).2.2.succeeded = true) ∧
    ((mapLookup "ed1" (runTwo callA callB [true, false, true, false]
        (⟨[("ed1", editablePaste)]⟩, .start, .start)).1.items).map
        (fun q => q.Versions.length) = some (editablePaste.Versions.length + 1)) :=
  concurrent_edits_not_atomic ⟨[("ed1", editablePaste)]⟩ "ed1" callA callB
    editablePaste
    { ZCode := GzipEncode "print(1)", Lang := "python", Author := "alice", At := 0 }
    rfl rfl rfl rfl (by decide) (by decide) (by decide) (by decide) rfl
    (by decide) (by decide) (by decide) (by decide) (by decide)
